import Mathlib

/-!
Shallow embedding of `src/include/thread_pool.hpp` (class `ThreadPool`).

The C++ source has three operations:

* `ThreadPool::ThreadPool(int num_threads)` — spawns `num_threads` worker
  threads in a loop `for (int i = 0; i < num_threads; ++i)`; it performs no
  validation and never throws.
* `ThreadPool::~ThreadPool()` — sets `stop_ = true` under the queue mutex,
  calls `status_update_.notify_all()`, then joins every worker.
* `ThreadPool::submit(f, args...)` — builds
  `std::packaged_task<R()>(std::bind(f, args...))` (eager binding: argument
  values are copied into the bind object at call time), takes its
  `std::future`, appends a type-erased thunk invoking the packaged task to
  `tasks_` under the mutex, calls `notify_one`, and returns the future.
  There is no check of `stop_` and no failure path.
* `ThreadPool::workerThread()` — loops: under the mutex,
  `status_update_.wait(lock, [this]{ return stop_ || !tasks_.empty(); })`;
  if `stop_ && tasks_.empty()` the thread returns; otherwise it pops the
  front task and invokes it outside the lock.

The embedding has two layers.

1. A pool-level small-step transition system (`Pool`, `Step`) in which tasks
   are identified by the order of their submission (`nextId` counts calls of
   `submit`).  Worker threads are modelled by a status
   (`blocked` in `wait`, `awake` holding the lock and about to re-check the
   wait predicate, `running t` executing task `t` outside the lock, or
   `terminated`).  The condition variable is modelled faithfully:
   `notify_one` wakes one blocked worker (or none when none is blocked),
   `notify_all` wakes all blocked workers, and a spurious wake-up of any
   blocked worker is always possible; a woken worker re-evaluates the
   predicate `stop_ || !tasks_.empty()` before acting.  Ghost fields record
   the ids submitted before the stop flag was set (`preStop`) and the ids of
   tasks whose execution has completed (`executed`).

2. A typed value-level pipeline for one submission
   (`PackagedTask`, `FutureCell`): `std::bind` captures the argument values,
   `std::packaged_task::operator()` runs the callable, captures a thrown
   exception instead of propagating it, and stores the outcome once into the
   shared state read by `std::future::get`.
-/

/-- Status of one worker thread inside `ThreadPool::workerThread`. -/
inductive WStatus where
  | blocked : WStatus
  | awake : WStatus
  | running : Nat → WStatus
  | terminated : WStatus
deriving DecidableEq, Repr

/-- Pool state: the task queue `tasks_` (front of the C++ `std::queue` at the
head of the list), the flag `stop_`, the number `nextId` of `submit` calls so
far (task ids are `0, 1, …`), the statuses of the threads in `workers_`, and
two ghost logs: ids submitted while `stop_` was still false, and ids of tasks
whose invocation `task()` has completed. -/
structure Pool where
  queue : List Nat
  stop : Bool
  nextId : Nat
  workers : List WStatus
  preStop : List Nat
  executed : List Nat
deriving DecidableEq, Repr

/-- State right after `ThreadPool::ThreadPool` has spawned `n` workers: empty
queue, `stop_ = false`, each worker entering `wait`, which first evaluates the
predicate (status `awake`). -/
def Pool.start (n : Nat) : Pool :=
  { queue := []
    stop := false
    nextId := 0
    workers := List.replicate n WStatus.awake
    preStop := []
    executed := [] }

/-- Constructor `ThreadPool::ThreadPool(int num_threads)`: the spawn loop
`for (int i = 0; i < num_threads; ++i)` runs `max num_threads 0` times; the
constructor has no validation and no failure path, so the embedding marks the
(absent) error branch with `Except`: it always returns `Except.ok`. -/
inductive PoolError where
  | configurationError : PoolError
deriving DecidableEq, Repr

/-- Result of running the C++ constructor on `num_threads` (an `int`, so it
may be zero or negative). -/
def mkThreadPool (num_threads : Int) : Except PoolError Pool :=
  Except.ok (Pool.start num_threads.toNat)

/-- Outcome of one pass through the wait/check/pop section of
`ThreadPool::workerThread` (lines 106–111), as a function of the values of
`stop_` and `tasks_` when the predicate is evaluated. -/
inductive WaitOutcome where
  | keepWaiting : WaitOutcome
  | exitLoop : WaitOutcome
  | dequeued : Nat → List Nat → WaitOutcome
deriving DecidableEq, Repr

/-- The worker's dequeue-or-wait step.  `wait(lock, [this]{ return stop_ ||
!tasks_.empty(); })` blocks while the predicate is false, i.e. while `stop_`
is false and the queue is empty; once it returns, `if (stop_ &&
tasks_.empty()) return;` exits the loop, and otherwise the worker pops the
front of the queue. -/
def tryDequeueOrWait : Bool → List Nat → WaitOutcome
  | false, [] => WaitOutcome.keepWaiting
  | true, [] => WaitOutcome.exitLoop
  | _, t :: rest => WaitOutcome.dequeued t rest

/-- Queue effect of `ThreadPool::submit`: the new task is appended to the
back of `tasks_` unconditionally (there is no check of `stop_` and no error
return); the ghost log `preStop` records the id when `stop_` is still false.
The returned future is identified with the fresh task id `p.nextId`. -/
def enqueueTask (p : Pool) : Pool :=
  { p with
    queue := p.queue ++ [p.nextId]
    nextId := p.nextId + 1
    preStop := if p.stop then p.preStop else p.preStop ++ [p.nextId] }

/-- Effect of `status_update_.notify_all()` in the destructor: every worker
blocked in `wait` wakes up and re-evaluates the predicate. -/
def wakeAll (ws : List WStatus) : List WStatus :=
  ws.map fun w => if w = WStatus.blocked then WStatus.awake else w

/-- One interleaved step of the pool.  `submitWake`/`submitNoWaiter` are
`ThreadPool::submit` (its `notify_one` wakes exactly one blocked worker when
one exists, otherwise no one); `stopSet` is the destructor body before the
joins (`stop_ = true` under the lock, then `notify_all`); the remaining
constructors are the worker loop: a spurious wake-up, the re-check of the
wait predicate with its three outcomes, and the completion of `task()`. -/
inductive Step : Pool → Pool → Prop where
  | submitWake (p : Pool) (l r : List WStatus) :
      p.workers = l ++ WStatus.blocked :: r →
      Step p { enqueueTask p with workers := l ++ WStatus.awake :: r }
  | submitNoWaiter (p : Pool) :
      (∀ w ∈ p.workers, w ≠ WStatus.blocked) →
      Step p (enqueueTask p)
  | stopSet (p : Pool) :
      Step p { p with stop := true, workers := wakeAll p.workers }
  | spuriousWake (p : Pool) (l r : List WStatus) :
      p.workers = l ++ WStatus.blocked :: r →
      Step p { p with workers := l ++ WStatus.awake :: r }
  | checkBlock (p : Pool) (l r : List WStatus) :
      p.workers = l ++ WStatus.awake :: r →
      tryDequeueOrWait p.stop p.queue = WaitOutcome.keepWaiting →
      Step p { p with workers := l ++ WStatus.blocked :: r }
  | checkExit (p : Pool) (l r : List WStatus) :
      p.workers = l ++ WStatus.awake :: r →
      tryDequeueOrWait p.stop p.queue = WaitOutcome.exitLoop →
      Step p { p with workers := l ++ WStatus.terminated :: r }
  | checkDequeue (p : Pool) (l r : List WStatus) (t : Nat) (rest : List Nat) :
      p.workers = l ++ WStatus.awake :: r →
      tryDequeueOrWait p.stop p.queue = WaitOutcome.dequeued t rest →
      Step p { p with queue := rest, workers := l ++ WStatus.running t :: r }
  | finishTask (p : Pool) (l r : List WStatus) (t : Nat) :
      p.workers = l ++ WStatus.running t :: r →
      Step p { p with executed := p.executed ++ [t],
                      workers := l ++ WStatus.awake :: r }

/-- States reachable from the freshly constructed pool with `n` workers. -/
def Reachable (n : Nat) (p : Pool) : Prop :=
  Relation.ReflTransGen Step (Pool.start n) p

/-- Outcome of invoking a C++ callable: it either returns a value of the
declared return type or throws an exception (exception payloads are modelled
by an arbitrary type `ε`). -/
inductive TaskOutcome (ε : Type u) (β : Type v) where
  | value : β → TaskOutcome ε β
  | thrown : ε → TaskOutcome ε β
deriving DecidableEq, Repr

/-- The object built by `std::packaged_task<R()>(std::bind(f, args...))`:
`std::bind` copies the argument values into the bind object at the moment
`submit` is called, so the packaged task stores the callable together with
the captured argument values. -/
structure PackagedTask (ε : Type u) (α : Type v) (β : Type w) where
  callable : α → TaskOutcome ε β
  boundArg : α

/-- Shared state between `std::promise`/`std::packaged_task` and the
`std::future` returned by `submit`: empty until the task runs, then written
exactly once with the outcome. -/
structure FutureCell (ε : Type u) (β : Type v) where
  contents : Option (TaskOutcome ε β)

/-- Shared state of a freshly created future: nothing stored yet. -/
def FutureCell.empty (ε : Type u) (β : Type v) : FutureCell ε β :=
  { contents := none }

/-- Lines 85–87 of `submit`: bind the callable to the argument values held by
the caller at submission time (`readArgs` evaluated on the caller state
`sSubmit`), producing the zero-argument packaged task. -/
def submitBind (f : α → TaskOutcome ε β) (readArgs : σ → α) (sSubmit : σ) :
    PackagedTask ε α β :=
  { callable := f, boundArg := readArgs sSubmit }

/-- Invocation `(*task)()` performed by the worker when the caller state has
meanwhile changed to `sExec`: `std::packaged_task::operator()` runs the
stored callable on the stored argument copies — never on `sExec` — captures
a thrown exception instead of letting it escape into `workerThread`, and
stores the outcome into the shared state. -/
def invokePackagedAt (sExec : σ) (task : PackagedTask ε α β)
    (cell : FutureCell ε β) : FutureCell ε β :=
  { cell with contents := some (task.callable task.boundArg) }

/-- Reading the shared state through `std::future::get`: blocks until the
outcome is stored (`none` models a not-yet-completed task), then returns the
stored value or rethrows the stored exception. -/
def futureGet (cell : FutureCell ε β) : Option (TaskOutcome ε β) :=
  cell.contents

/-- One worker processing a queue of type-erased thunks in order: each thunk
invokes its packaged task, which returns normally to the loop even when the
callable threw (line 113, `task();`), so the worker simply proceeds to the
next task.  The result is the shared state of each task in queue order. -/
def runQueue (sExec : σ) (tasks : List (PackagedTask ε α β)) :
    List (FutureCell ε β) :=
  tasks.map fun t => invokePackagedAt sExec t (FutureCell.empty ε β)

/-- Callable `add` from the example driver (`float` arithmetic modelled
exactly on rationals; the example values are exactly representable). -/
def add (a b : ℚ) : ℚ := a + b

/-- Callable `multiply` from the example driver. -/
def multiply (a b : ℚ) : ℚ := a * b

/-- A non-throwing C++ callable of two arguments, as the pipeline sees it. -/
def pureCallable (f : ℚ → ℚ → ℚ) : ℚ × ℚ → TaskOutcome ε ℚ :=
  fun p => TaskOutcome.value (f p.1 p.2)

/-- Throwing callable used to exercise the failure path of the pipeline. -/
def failingCallable : ℚ × ℚ → TaskOutcome Unit ℚ :=
  fun _ => TaskOutcome.thrown ()

/-- Inversion: the wait only keeps blocking while the predicate
`stop_ || !tasks_.empty()` is false. -/
theorem tryDequeueOrWait_keepWaiting_iff (s : Bool) (q : List Nat) :
    tryDequeueOrWait s q = WaitOutcome.keepWaiting ↔ s = false ∧ q = [] := by
  cases s <;> cases q <;> simp [tryDequeueOrWait]

/-- Inversion: the worker leaves its loop exactly when the stop flag is set
and the queue is empty. -/
theorem tryDequeueOrWait_exitLoop_iff (s : Bool) (q : List Nat) :
    tryDequeueOrWait s q = WaitOutcome.exitLoop ↔ s = true ∧ q = [] := by
  cases s <;> cases q <;> simp [tryDequeueOrWait]

/-- Inversion: a dequeue takes the front of the queue and leaves the rest. -/
theorem tryDequeueOrWait_dequeued_iff (s : Bool) (q : List Nat) (t : Nat)
    (rest : List Nat) :
    tryDequeueOrWait s q = WaitOutcome.dequeued t rest ↔ q = t :: rest := by
  cases s <;> cases q <;> simp [tryDequeueOrWait]

/-- C7: the worker's dequeue-or-wait step blocks exactly while the queue is
empty and the stop flag is unset; when it proceeds with the stop flag set and
the queue empty the worker exits its loop; otherwise it removes and returns
the front task of the queue, claiming tasks in FIFO submission order. -/
theorem dequeue_or_wait_spec :
    (∀ (s : Bool) (q : List Nat),
        tryDequeueOrWait s q = WaitOutcome.keepWaiting ↔ s = false ∧ q = []) ∧
    (∀ (s : Bool) (q : List Nat),
        tryDequeueOrWait s q = WaitOutcome.exitLoop ↔ s = true ∧ q = []) ∧
    (∀ (s : Bool) (t : Nat) (rest : List Nat),
        tryDequeueOrWait s (t :: rest) = WaitOutcome.dequeued t rest) :=
  ⟨tryDequeueOrWait_keepWaiting_iff, tryDequeueOrWait_exitLoop_iff,
   fun s _ _ => by cases s <;> rfl⟩

/-- Witness for C7 at concrete inputs: a stopped empty queue makes the worker
exit, and a non-empty queue yields its front task. -/
theorem dequeue_or_wait_spec_witness :
    tryDequeueOrWait true [] = WaitOutcome.exitLoop ∧
    tryDequeueOrWait false [7, 9] = WaitOutcome.dequeued 7 [9] :=
  ⟨(dequeue_or_wait_spec.2.1 true []).mpr ⟨rfl, rfl⟩,
   dequeue_or_wait_spec.2.2 false 7 [9]⟩

/-- C1 counterexample: constructing the pool with worker count `0` does not
fail — the constructor has no validation, returns a pool, and raises no
`ConfigurationError`; the spawn loop merely runs zero times. -/
theorem ctor_nonpositive_cex :
    mkThreadPool 0 ≠ Except.error PoolError.configurationError ∧
    mkThreadPool 0 = Except.ok (Pool.start 0) ∧
    (Pool.start 0).workers = [] := by
  refine ⟨by simp [mkThreadPool], rfl, rfl⟩

/-- C1 (amended): for every worker count `n ≤ 0` the constructor succeeds —
the pool object is created, no worker threads are spawned (the loop body
never runs), and no error is reported. -/
theorem ctor_nonpositive (n : Int) (h : n ≤ 0) :
    mkThreadPool n = Except.ok (Pool.start 0) ∧ (Pool.start 0).workers = [] := by
  constructor
  · unfold mkThreadPool
    rw [Int.toNat_of_nonpos h]
  · rfl

/-- Witness for the amended C1 at the concrete worker count `-1`. -/
theorem ctor_nonpositive_witness :
    mkThreadPool (-1) = Except.ok (Pool.start 0) :=
  (ctor_nonpositive (-1) (by decide)).1

/-- C8: `submit` performs eager binding — the argument values are captured
into the zero-argument task at the time `submit` is called, and invoking the
task later, in any caller state `sExec`, produces the callable applied to the
values as of submission, identical to what invocation in the submission state
itself would produce. -/
theorem submit_eager_binding (f : α → TaskOutcome ε β) (readArgs : σ → α)
    (sSubmit sExec : σ) :
    (submitBind f readArgs sSubmit).boundArg = readArgs sSubmit ∧
    invokePackagedAt sExec (submitBind f readArgs sSubmit)
        (FutureCell.empty ε β)
      = { contents := some (f (readArgs sSubmit)) } ∧
    invokePackagedAt sExec (submitBind f readArgs sSubmit)
        (FutureCell.empty ε β)
      = invokePackagedAt sSubmit (submitBind f readArgs sSubmit)
          (FutureCell.empty ε β) :=
  ⟨rfl, rfl, rfl⟩

/-- C2: for every callable and arguments submitted, when the callable applied
to the bound argument values returns `v`, reading the returned future with
`get()` yields exactly `v`. -/
theorem submit_get_value (f : α → TaskOutcome ε β) (readArgs : σ → α)
    (sSubmit sExec : σ) (v : β)
    (h : f (readArgs sSubmit) = TaskOutcome.value v) :
    futureGet (invokePackagedAt sExec (submitBind f readArgs sSubmit)
        (FutureCell.empty ε β)) = some (TaskOutcome.value v) := by
  simp [futureGet, invokePackagedAt, submitBind, h]

/-- Witness for C2 on the example driver: submitting `add` with `1.0` and
`2.0` yields `3.0`, and submitting `multiply` with `3.0` and `4.0` yields
`12.0`, whatever the caller state is at execution time. -/
theorem submit_get_value_witness :
    futureGet (invokePackagedAt ((5 : ℚ), (5 : ℚ))
        (submitBind (pureCallable add) id ((1 : ℚ), (2 : ℚ)))
        (FutureCell.empty Unit ℚ)) = some (TaskOutcome.value (3 : ℚ)) ∧
    futureGet (invokePackagedAt ((5 : ℚ), (5 : ℚ))
        (submitBind (pureCallable multiply) id ((3 : ℚ), (4 : ℚ)))
        (FutureCell.empty Unit ℚ)) = some (TaskOutcome.value (12 : ℚ)) :=
  ⟨submit_get_value (pureCallable add) id (1, 2) (5, 5) 3
      (by norm_num [pureCallable, add]),
   submit_get_value (pureCallable multiply) id (3, 4) (5, 5) 12
      (by norm_num [pureCallable, multiply])⟩

/-- C6: a callable that throws has its failure captured and delivered through
its own future (`get()` surfaces the thrown exception), the worker loop is
not crashed — every task before and after the failing one in the queue is
still invoked and has its cell written — and later submissions are still
appended to the pool queue. -/
theorem task_failure_isolated (f : α → TaskOutcome ε β) (readArgs : σ → α)
    (sSubmit sExec : σ) (e : ε)
    (h : f (readArgs sSubmit) = TaskOutcome.thrown e)
    (ts1 ts2 : List (PackagedTask ε α β)) (p : Pool) :
    futureGet (invokePackagedAt sExec (submitBind f readArgs sSubmit)
        (FutureCell.empty ε β)) = some (TaskOutcome.thrown e) ∧
    runQueue sExec (ts1 ++ submitBind f readArgs sSubmit :: ts2)
      = runQueue sExec ts1
          ++ invokePackagedAt sExec (submitBind f readArgs sSubmit)
              (FutureCell.empty ε β)
          :: runQueue sExec ts2 ∧
    (∀ c ∈ runQueue sExec ts2, c.contents ≠ none) ∧
    (enqueueTask p).queue = p.queue ++ [p.nextId] := by
  refine ⟨by simp [futureGet, invokePackagedAt, submitBind, h],
          by simp [runQueue], ?_, rfl⟩
  intro c hc
  simp only [runQueue, List.mem_map] at hc
  obtain ⟨t, _, rfl⟩ := hc
  simp [invokePackagedAt]

/-- Witness for C6: a concrete throwing callable delivers its exception
through `get()` on its own handle. -/
theorem task_failure_isolated_witness :
    futureGet (invokePackagedAt ((5 : ℚ), (5 : ℚ))
        (submitBind failingCallable id ((1 : ℚ), (2 : ℚ)))
        (FutureCell.empty Unit ℚ)) = some (TaskOutcome.thrown ()) :=
  (task_failure_isolated failingCallable id (1, 2) (5, 5) () rfl [] []
      (Pool.start 1)).1

/-- C10: `submit` never rejects a submission in any pool state — also when
the stop flag is already set — it appends the task to the queue, returns the
fresh future id, and a submit transition is always available. -/
theorem submit_never_rejects (p : Pool) :
    (enqueueTask p).queue = p.queue ++ [p.nextId] ∧
    (enqueueTask p).nextId = p.nextId + 1 ∧
    (enqueueTask p).stop = p.stop ∧
    ∃ q, Step p q ∧ q.queue = p.queue ++ [p.nextId] ∧ q.nextId = p.nextId + 1 := by
  refine ⟨rfl, rfl, rfl, ?_⟩
  by_cases hb : WStatus.blocked ∈ p.workers
  · obtain ⟨l, r, hw⟩ := List.append_of_mem hb
    exact ⟨_, Step.submitWake p l r hw, rfl, rfl⟩
  · exact ⟨enqueueTask p,
      Step.submitNoWaiter p (fun w hw hne => hb (hne ▸ hw)), rfl, rfl⟩

/-- Test whether a worker is currently executing the task with id `id`. -/
def isRunningId (id : Nat) : WStatus → Bool
  | WStatus.running t => decide (t = id)
  | _ => false

/-- Test whether a worker is currently executing some task. -/
def isRunningW : WStatus → Bool
  | WStatus.running _ => true
  | _ => false

/-- Test whether a worker is blocked inside `wait`. -/
def isBlockedW : WStatus → Bool
  | WStatus.blocked => true
  | _ => false

/-- Test whether a worker has left its loop. -/
def isTerminatedW : WStatus → Bool
  | WStatus.terminated => true
  | _ => false

/-- Number of workers currently executing task `id`. -/
def runningCount (id : Nat) (ws : List WStatus) : Nat :=
  ws.countP (isRunningId id)

/-- Number of workers blocked inside `wait`. -/
def blockedCount (ws : List WStatus) : Nat :=
  ws.countP isBlockedW

/-- Number of workers that have left their loop. -/
def terminatedCount (ws : List WStatus) : Nat :=
  ws.countP isTerminatedW

/-- Number of workers currently executing some task. -/
def runningTotal (ws : List WStatus) : Nat :=
  ws.countP isRunningW

/-- Number of places where task `id` currently sits: still queued, being
executed by some worker, or already completed. -/
def ledgerCount (id : Nat) (p : Pool) : Nat :=
  p.queue.count id + runningCount id p.workers + p.executed.count id

/-- Pool invariant: every submitted task id sits in exactly one place;
a terminated worker implies the stop flag; pre-stop ids are submitted ids;
and once all (of the at least one) workers have terminated, every pre-stop
task has been executed. -/
def PoolInv (p : Pool) : Prop :=
  (∀ id, ledgerCount id p = if id < p.nextId then 1 else 0) ∧
  (∀ w ∈ p.workers, w = WStatus.terminated → p.stop = true) ∧
  (∀ id ∈ p.preStop, id < p.nextId) ∧
  ((p.workers ≠ [] ∧ ∀ w ∈ p.workers, w = WStatus.terminated) →
      ∀ id ∈ p.preStop, id ∈ p.executed)

/-- Waking workers does not change which tasks are being executed. -/
theorem runningCount_wakeAll (id : Nat) (ws : List WStatus) :
    runningCount id (wakeAll ws) = runningCount id ws := by
  induction ws with
  | nil => rfl
  | cons w ws ih =>
      cases w <;>
        simp_all [wakeAll, runningCount, List.countP_cons, isRunningId]

/-- Waking workers does not wake the dead: terminated statuses are fixed. -/
theorem wakeAll_all_terminated (ws : List WStatus)
    (h : ∀ w ∈ wakeAll ws, w = WStatus.terminated) :
    ∀ w ∈ ws, w = WStatus.terminated := by
  intro w hw
  have hmem : (if w = WStatus.blocked then WStatus.awake else w) ∈ wakeAll ws :=
    List.mem_map_of_mem _ hw
  have h2 := h _ hmem
  by_cases hb : w = WStatus.blocked
  · rw [if_pos hb] at h2
    exact absurd h2 (by intro hc; cases hc)
  · rwa [if_neg hb] at h2

/-- Membership transfer when one worker slot changes to a different status. -/
theorem mem_replace_ne (l r : List WStatus) (w1 w2 x : WStatus)
    (hx : x ∈ l ++ w2 :: r) (hne : x ≠ w2) : x ∈ l ++ w1 :: r := by
  rcases List.mem_append.mp hx with h | h
  · exact List.mem_append.mpr (Or.inl h)
  · rcases List.mem_cons.mp h with h | h
    · exact absurd h hne
    · exact List.mem_append.mpr (Or.inr (List.mem_cons_of_mem _ h))

/-- The invariant holds for the freshly constructed pool. -/
theorem inv_start (n : Nat) : PoolInv (Pool.start n) := by
  refine ⟨?_, ?_, ?_, ?_⟩
  · intro id
    simp [ledgerCount, Pool.start, runningCount, List.countP_replicate,
      isRunningId]
  · intro w hw hterm
    have := List.eq_of_mem_replicate hw
    rw [this] at hterm
    cases hterm
  · intro id hid
    simp [Pool.start] at hid
  · intro _ id hid
    simp [Pool.start] at hid

/-- Transfer of the per-id ledger goal when a step leaves the ledger and the
submission counter unchanged. -/
theorem ledger_goal_same (p q : Pool) (hn : q.nextId = p.nextId)
    (hled : ∀ id, ledgerCount id q = ledgerCount id p)
    (hcount : ∀ id, ledgerCount id p = if id < p.nextId then 1 else 0) :
    ∀ id, ledgerCount id q = if id < q.nextId then 1 else 0 := by
  intro id
  rw [hled id, hn, hcount id]

/-- Transfer of the per-id ledger goal when a step adds one fresh id. -/
theorem ledger_goal_submit (p q : Pool) (hn : q.nextId = p.nextId + 1)
    (hled : ∀ id, ledgerCount id q
        = ledgerCount id p + (if p.nextId = id then 1 else 0))
    (hcount : ∀ id, ledgerCount id p = if id < p.nextId then 1 else 0) :
    ∀ id, ledgerCount id q = if id < q.nextId then 1 else 0 := by
  intro id
  rw [hled id, hn, hcount id]
  split_ifs <;> omega

/-- A worker list with a visibly non-terminated slot is not all terminated. -/
theorem not_all_terminated (l r : List WStatus) (w : WStatus)
    (hne : w ≠ WStatus.terminated)
    (h : ∀ x ∈ l ++ w :: r, x = WStatus.terminated) : False :=
  hne (h w (List.mem_append.mpr (Or.inr (List.mem_cons_self w r))))

/-- Every step of the pool preserves the invariant. -/
theorem inv_step {p q : Pool} (hstep : Step p q) (hinv : PoolInv p) :
    PoolInv q := by
  obtain ⟨hcount, hterm, hpre, hdrain⟩ := hinv
  cases hstep with
  | submitWake l r hw =>
      refine ⟨?_, ?_, ?_, ?_⟩
      · refine ledger_goal_submit p _ rfl ?_ hcount
        intro id
        simp only [ledgerCount, enqueueTask, List.count_append, hw,
          List.count_singleton, runningCount, List.countP_append,
          List.countP_cons, isRunningId, beq_iff_eq]
        split_ifs <;> omega
      · intro w hwmem hweq
        subst hweq
        refine hterm _ ?_ rfl
        rw [hw]
        exact mem_replace_ne l r WStatus.blocked WStatus.awake _ hwmem
          (fun hc => WStatus.noConfusion hc)
      · intro id hid
        simp only [enqueueTask] at hid
        by_cases hs : p.stop = true
        · rw [if_pos hs] at hid
          exact Nat.lt_succ_of_lt (hpre id hid)
        · rw [if_neg hs] at hid
          rcases List.mem_append.mp hid with h | h
          · exact Nat.lt_succ_of_lt (hpre id h)
          · rcases List.mem_cons.mp h with h | h
            · rw [h]; exact Nat.lt_succ_self _
            · cases h
      · rintro ⟨-, hall⟩ id hid
        exact absurd hall
          (fun h => not_all_terminated l r WStatus.awake
            (fun hc => WStatus.noConfusion hc) h)
  | submitNoWaiter hnb =>
      refine ⟨?_, ?_, ?_, ?_⟩
      · refine ledger_goal_submit p _ rfl ?_ hcount
        intro id
        simp only [ledgerCount, enqueueTask, List.count_append,
          List.count_singleton, beq_iff_eq]
        split_ifs <;> omega
      · exact fun w hwmem hweq => hterm w hwmem hweq
      · intro id hid
        simp only [enqueueTask] at hid
        by_cases hs : p.stop = true
        · rw [if_pos hs] at hid
          exact Nat.lt_succ_of_lt (hpre id hid)
        · rw [if_neg hs] at hid
          rcases List.mem_append.mp hid with h | h
          · exact Nat.lt_succ_of_lt (hpre id h)
          · rcases List.mem_cons.mp h with h | h
            · rw [h]; exact Nat.lt_succ_self _
            · cases h
      · rintro ⟨hne, hall⟩ id hid
        have hstop : p.stop = true := by
          obtain ⟨w, hwmem⟩ := List.exists_mem_of_ne_nil _ hne
          exact hterm w hwmem (hall w hwmem)
        simp only [enqueueTask, hstop, if_true] at hid
        exact hdrain ⟨hne, hall⟩ id hid
  | stopSet =>
      refine ⟨?_, ?_, ?_, ?_⟩
      · refine ledger_goal_same p _ rfl ?_ hcount
        intro id
        simp [ledgerCount, runningCount_wakeAll]
      · intro w _ _
        rfl
      · exact hpre
      · rintro ⟨hne, hall⟩ id hid
        have hall2 := wakeAll_all_terminated p.workers hall
        have hne2 : p.workers ≠ [] := by
          intro hnil
          rw [hnil] at hne
          exact hne rfl
        exact hdrain ⟨hne2, hall2⟩ id hid
  | spuriousWake l r hw =>
      refine ⟨?_, ?_, ?_, ?_⟩
      · refine ledger_goal_same p _ rfl ?_ hcount
        intro id
        simp [ledgerCount, runningCount, hw, List.countP_append,
          List.countP_cons, isRunningId]
      · intro w hwmem hweq
        subst hweq
        refine hterm _ ?_ rfl
        rw [hw]
        exact mem_replace_ne l r WStatus.blocked WStatus.awake _ hwmem
          (fun hc => WStatus.noConfusion hc)
      · exact hpre
      · rintro ⟨-, hall⟩ id hid
        exact absurd hall
          (fun h => not_all_terminated l r WStatus.awake
            (fun hc => WStatus.noConfusion hc) h)
  | checkBlock l r hw hguard =>
      refine ⟨?_, ?_, ?_, ?_⟩
      · refine ledger_goal_same p _ rfl ?_ hcount
        intro id
        simp [ledgerCount, runningCount, hw, List.countP_append,
          List.countP_cons, isRunningId]
      · intro w hwmem hweq
        subst hweq
        refine hterm _ ?_ rfl
        rw [hw]
        exact mem_replace_ne l r WStatus.awake WStatus.blocked _ hwmem
          (fun hc => WStatus.noConfusion hc)
      · exact hpre
      · rintro ⟨-, hall⟩ id hid
        exact absurd hall
          (fun h => not_all_terminated l r WStatus.blocked
            (fun hc => WStatus.noConfusion hc) h)
  | checkExit l r hw hguard =>
      obtain ⟨hstop, hqnil⟩ := (tryDequeueOrWait_exitLoop_iff _ _).mp hguard
      refine ⟨?_, ?_, ?_, ?_⟩
      · refine ledger_goal_same p _ rfl ?_ hcount
        intro id
        simp [ledgerCount, runningCount, hw, List.countP_append,
          List.countP_cons, isRunningId]
      · intro w _ _
        exact hstop
      · exact hpre
      · rintro ⟨-, hall⟩ id hid
        have hlt : id < p.nextId := hpre id hid
        have hrun : runningCount id (l ++ WStatus.awake :: r) = 0 := by
          apply List.countP_eq_zero.mpr
          intro w hwmem
          rcases List.mem_append.mp hwmem with h | h
          · have hwt : w = WStatus.terminated :=
              hall w (List.mem_append.mpr (Or.inl h))
            rw [hwt]
            simp [isRunningId]
          · rcases List.mem_cons.mp h with h | h
            · rw [h]; simp [isRunningId]
            · have hwt : w = WStatus.terminated :=
                hall w (List.mem_append.mpr
                  (Or.inr (List.mem_cons_of_mem _ h)))
              rw [hwt]
              simp [isRunningId]
        have hc := hcount id
        simp only [ledgerCount, hw, hqnil, List.count_nil, hrun,
          if_pos hlt, Nat.zero_add, Nat.add_zero] at hc
        have hmem : id ∈ p.executed := List.count_pos_iff.mp (by omega)
        exact hmem
  | checkDequeue l r t rest hw hguard =>
      have hq : p.queue = t :: rest :=
        (tryDequeueOrWait_dequeued_iff _ _ _ _).mp hguard
      refine ⟨?_, ?_, ?_, ?_⟩
      · refine ledger_goal_same p _ rfl ?_ hcount
        intro id
        simp only [ledgerCount, hq, hw, List.count_cons, runningCount,
          List.countP_append, List.countP_cons, isRunningId]
        by_cases hti : t = id
        · subst hti
          simp
          omega
        · simp [hti]
      · intro w hwmem hweq
        subst hweq
        refine hterm _ ?_ rfl
        rw [hw]
        exact mem_replace_ne l r WStatus.awake (WStatus.running t) _ hwmem
          (fun hc => WStatus.noConfusion hc)
      · exact hpre
      · rintro ⟨-, hall⟩ id hid
        exact absurd hall
          (fun h => not_all_terminated l r (WStatus.running t)
            (fun hc => WStatus.noConfusion hc) h)
  | finishTask l r t hw =>
      refine ⟨?_, ?_, ?_, ?_⟩
      · refine ledger_goal_same p _ rfl ?_ hcount
        intro id
        simp only [ledgerCount, hw, List.count_append, List.count_singleton,
          runningCount, List.countP_append, List.countP_cons, isRunningId]
        by_cases hti : t = id
        · subst hti
          simp
          omega
        · simp [hti]
      · intro w hwmem hweq
        subst hweq
        refine hterm _ ?_ rfl
        rw [hw]
        exact mem_replace_ne l r (WStatus.running t) WStatus.awake _ hwmem
          (fun hc => WStatus.noConfusion hc)
      · exact hpre
      · rintro ⟨-, hall⟩ id hid
        exact absurd hall
          (fun h => not_all_terminated l r WStatus.awake
            (fun hc => WStatus.noConfusion hc) h)

/-- The invariant holds in every reachable pool state. -/
theorem inv_reachable (n : Nat) (p : Pool) (h : Reachable n p) : PoolInv p := by
  induction h with
  | refl => exact inv_start n
  | tail hsteps hstep ih => exact inv_step hstep ih

/-- Waking workers does not terminate any worker. -/
theorem terminatedCount_wakeAll (ws : List WStatus) :
    terminatedCount (wakeAll ws) = terminatedCount ws := by
  induction ws with
  | nil => rfl
  | cons w ws ih =>
      cases w <;>
        simp_all [wakeAll, terminatedCount, List.countP_cons, isTerminatedW]

/-- Waking workers does not start executing any task. -/
theorem runningTotal_wakeAll (ws : List WStatus) :
    runningTotal (wakeAll ws) = runningTotal ws := by
  induction ws with
  | nil => rfl
  | cons w ws ih =>
      cases w <;>
        simp_all [wakeAll, runningTotal, List.countP_cons, isRunningW]

/-- After `notify_all`, no worker is left blocked in `wait`. -/
theorem blockedCount_wakeAll (ws : List WStatus) :
    blockedCount (wakeAll ws) = 0 := by
  apply List.countP_eq_zero.mpr
  intro w hw
  obtain ⟨x, -, hfx⟩ := List.mem_map.mp hw
  by_cases hb : x = WStatus.blocked
  · rw [if_pos hb] at hfx
    rw [← hfx]
    simp [isBlockedW]
  · rw [if_neg hb] at hfx
    rw [← hfx]
    cases x <;> simp_all [isBlockedW]

/-- Only the exit branch of the worker loop terminates a worker, and it fires
only when the stop flag is set and the queue is empty. -/
theorem step_terminated_increase {p q : Pool} (hstep : Step p q)
    (hlt : terminatedCount p.workers < terminatedCount q.workers) :
    p.stop = true ∧ p.queue = [] := by
  cases hstep with
  | submitWake l r hw =>
      exfalso
      rw [hw] at hlt
      simp [terminatedCount, List.countP_cons, isTerminatedW] at hlt
  | submitNoWaiter hnb =>
      exact absurd hlt (by simp [enqueueTask])
  | stopSet =>
      exfalso
      have := terminatedCount_wakeAll p.workers
      simp_all
  | spuriousWake l r hw =>
      exfalso
      rw [hw] at hlt
      simp [terminatedCount, List.countP_cons, isTerminatedW] at hlt
  | checkBlock l r hw hguard =>
      exfalso
      rw [hw] at hlt
      simp [terminatedCount, List.countP_cons, isTerminatedW] at hlt
  | checkExit l r hw hguard =>
      exact (tryDequeueOrWait_exitLoop_iff _ _).mp hguard
  | checkDequeue l r t rest hw hguard =>
      exfalso
      rw [hw] at hlt
      simp [terminatedCount, List.countP_cons, isTerminatedW] at hlt
  | finishTask l r t hw =>
      exfalso
      rw [hw] at hlt
      simp [terminatedCount, List.countP_cons, isTerminatedW] at hlt

/-- Only the dequeue branch of the worker loop starts executing a task, and
it claims exactly the front task of the queue. -/
theorem step_running_increase {p q : Pool} (hstep : Step p q)
    (hlt : runningTotal p.workers < runningTotal q.workers) :
    ∃ t rest, p.queue = t :: rest ∧ q.queue = rest ∧
      runningCount t q.workers = runningCount t p.workers + 1 := by
  cases hstep with
  | submitWake l r hw =>
      exfalso
      rw [hw] at hlt
      simp [runningTotal, List.countP_cons, isRunningW] at hlt
  | submitNoWaiter hnb =>
      exact absurd hlt (by simp [enqueueTask])
  | stopSet =>
      exfalso
      have := runningTotal_wakeAll p.workers
      simp_all
  | spuriousWake l r hw =>
      exfalso
      rw [hw] at hlt
      simp [runningTotal, List.countP_cons, isRunningW] at hlt
  | checkBlock l r hw hguard =>
      exfalso
      rw [hw] at hlt
      simp [runningTotal, List.countP_cons, isRunningW] at hlt
  | checkExit l r hw hguard =>
      exfalso
      rw [hw] at hlt
      simp [runningTotal, List.countP_cons, isRunningW] at hlt
  | checkDequeue l r t rest hw hguard =>
      refine ⟨t, rest, (tryDequeueOrWait_dequeued_iff _ _ _ _).mp hguard,
        rfl, ?_⟩
      rw [hw]
      simp [runningCount, List.countP_cons, isRunningId]
      omega
  | finishTask l r t hw =>
      exfalso
      rw [hw] at hlt
      simp [runningTotal, List.countP_cons, isRunningW] at hlt

/-- A step that appends the fresh id to the queue is a submit; its
`notify_one` either turns exactly one blocked worker awake or, when no worker
is blocked, leaves the workers unchanged. -/
theorem step_enqueue_wakes {p q : Pool} (hstep : Step p q)
    (hq : q.queue = p.queue ++ [p.nextId]) :
    (∃ l r, p.workers = l ++ WStatus.blocked :: r ∧
        q.workers = l ++ WStatus.awake :: r ∧
        blockedCount q.workers + 1 = blockedCount p.workers) ∨
    ((∀ w ∈ p.workers, w ≠ WStatus.blocked) ∧ q.workers = p.workers) := by
  cases hstep with
  | submitWake l r hw =>
      refine Or.inl ⟨l, r, hw, rfl, ?_⟩
      rw [hw]
      simp [blockedCount, List.countP_cons, isBlockedW]
      omega
  | submitNoWaiter hnb =>
      exact Or.inr ⟨hnb, rfl⟩
  | stopSet =>
      exfalso
      have := congrArg List.length hq
      simp at this
  | spuriousWake l r hw =>
      exfalso
      have := congrArg List.length hq
      simp at this
  | checkBlock l r hw hguard =>
      exfalso
      have := congrArg List.length hq
      simp at this
  | checkExit l r hw hguard =>
      exfalso
      have := congrArg List.length hq
      simp at this
  | checkDequeue l r t rest hw hguard =>
      exfalso
      have hq2 : p.queue = t :: rest :=
        (tryDequeueOrWait_dequeued_iff _ _ _ _).mp hguard
      have hlen := congrArg List.length hq
      rw [hq2] at hlen
      simp at hlen
      omega
  | finishTask l r t hw =>
      exfalso
      have := congrArg List.length hq
      simp at this

/-- A step that flips the stop flag from false to true is the shutdown step:
it changes nothing but the flag and wakes all blocked workers. -/
theorem step_stop_flip {p q : Pool} (hstep : Step p q) (h0 : p.stop = false)
    (h1 : q.stop = true) :
    q.queue = p.queue ∧ q.nextId = p.nextId ∧ q.executed = p.executed ∧
    q.workers = wakeAll p.workers := by
  cases hstep
  case stopSet => exact ⟨rfl, rfl, rfl, rfl⟩
  all_goals simp_all [enqueueTask]

/-- The stop flag is never reset by any step. -/
theorem step_stop_mono {p q : Pool} (hstep : Step p q) (h : p.stop = true) :
    q.stop = true := by
  cases hstep <;> simp_all [enqueueTask]

/-- Final state of a concrete one-worker run: one task was submitted,
dequeued and executed, then the destructor signalled stop and the worker
exited. -/
def drainDemo : Pool :=
  { queue := [], stop := true, nextId := 1, workers := [WStatus.terminated],
    preStop := [0], executed := [0] }

/-- The concrete run reaching `drainDemo` from a one-worker pool. -/
theorem drainDemo_reachable : Reachable 1 drainDemo := by
  have hnb : ∀ w ∈ (Pool.start 1).workers, w ≠ WStatus.blocked := by
    intro w hw
    simp [Pool.start, List.mem_replicate] at hw
    subst hw
    exact fun hc => WStatus.noConfusion hc
  have h01 : Step (Pool.start 1)
      { queue := [0], stop := false, nextId := 1,
        workers := [WStatus.awake], preStop := [0], executed := [] } :=
    Step.submitNoWaiter (Pool.start 1) hnb
  have h12 : Step
      { queue := [0], stop := false, nextId := 1,
        workers := [WStatus.awake], preStop := [0], executed := [] }
      { queue := [], stop := false, nextId := 1,
        workers := [WStatus.running 0], preStop := [0], executed := [] } :=
    Step.checkDequeue _ [] [] 0 [] rfl rfl
  have h23 : Step
      { queue := [], stop := false, nextId := 1,
        workers := [WStatus.running 0], preStop := [0], executed := [] }
      { queue := [], stop := false, nextId := 1,
        workers := [WStatus.awake], preStop := [0], executed := [0] } :=
    Step.finishTask _ [] [] 0 rfl
  have h34 : Step
      { queue := [], stop := false, nextId := 1,
        workers := [WStatus.awake], preStop := [0], executed := [0] }
      { queue := [], stop := true, nextId := 1,
        workers := [WStatus.awake], preStop := [0], executed := [0] } :=
    Step.stopSet _
  have h45 : Step
      { queue := [], stop := true, nextId := 1,
        workers := [WStatus.awake], preStop := [0], executed := [0] }
      drainDemo :=
    Step.checkExit _ [] [] rfl rfl
  exact Relation.ReflTransGen.tail
    (Relation.ReflTransGen.tail
      (Relation.ReflTransGen.tail
        (Relation.ReflTransGen.tail (Relation.ReflTransGen.single h01) h12)
        h23)
      h34)
    h45

/-- A reachable one-worker pool whose shutdown has completed: stop flag set,
queue drained, worker terminated, nothing ever submitted. -/
def stoppedDemo : Pool :=
  { queue := [], stop := true, nextId := 0, workers := [WStatus.terminated],
    preStop := [], executed := [] }

/-- The concrete run reaching `stoppedDemo`: construct, stop, worker exits. -/
theorem stoppedDemo_reachable : Reachable 1 stoppedDemo := by
  have h01 : Step (Pool.start 1)
      { queue := [], stop := true, nextId := 0,
        workers := [WStatus.awake], preStop := [], executed := [] } :=
    Step.stopSet (Pool.start 1)
  have h12 : Step
      { queue := [], stop := true, nextId := 0,
        workers := [WStatus.awake], preStop := [], executed := [] }
      stoppedDemo :=
    Step.checkExit _ [] [] rfl rfl
  exact Relation.ReflTransGen.tail (Relation.ReflTransGen.single h01) h12

/-- C3: in every reachable pool state, every submitted task id sits in
exactly one place — still queued, claimed by exactly one worker, or executed
— with multiplicity exactly one (so no task is executed without having been
dequeued, and none is duplicated); and when all (of the at least one) workers
have terminated, every task submitted before stop was executed exactly
once. -/
theorem tasks_executed_exactly_once (n : Nat) (p : Pool)
    (hre : Reachable n p) :
    (∀ id, p.queue.count id + runningCount id p.workers
        + p.executed.count id = if id < p.nextId then 1 else 0) ∧
    ((p.workers ≠ [] ∧ ∀ w ∈ p.workers, w = WStatus.terminated) →
        ∀ id ∈ p.preStop, p.executed.count id = 1) := by
  obtain ⟨hcount, hterm, hpre, hdrain⟩ := inv_reachable n p hre
  refine ⟨hcount, ?_⟩
  rintro ⟨hne, hall⟩ id hid
  have hmem := hdrain ⟨hne, hall⟩ id hid
  have hc := hcount id
  rw [if_pos (hpre id hid)] at hc
  have hpos : 0 < p.executed.count id := List.count_pos_iff.mpr hmem
  simp only [ledgerCount] at hc
  omega

/-- Witness for C3 on the concrete run `drainDemo`: its single submitted
task id 0 has ledger multiplicity one and was executed exactly once. -/
theorem tasks_executed_exactly_once_witness :
    drainDemo.queue.count 0 + runningCount 0 drainDemo.workers
        + drainDemo.executed.count 0 = 1 ∧
    drainDemo.executed.count 0 = 1 := by
  have h := tasks_executed_exactly_once 1 drainDemo drainDemo_reachable
  constructor
  · have h0 := h.1 0
    simpa [drainDemo] using h0
  · exact h.2 ⟨by decide, fun w hw => List.mem_singleton.mp hw⟩ 0 (by decide)

/-- C4: a worker can only move to the terminated state when the stop flag is
set and the queue is empty, and when every worker of a (non-empty) reachable
pool has terminated, every task enqueued before stop was signalled has been
executed — no pending pre-stop task is abandoned. -/
theorem shutdown_drains_pending (n : Nat) (p : Pool) (hre : Reachable n p) :
    (∀ q, Step p q →
        terminatedCount p.workers < terminatedCount q.workers →
        p.stop = true ∧ p.queue = []) ∧
    (p.workers ≠ [] → (∀ w ∈ p.workers, w = WStatus.terminated) →
        ∀ id ∈ p.preStop, id ∈ p.executed) := by
  obtain ⟨-, -, -, hdrain⟩ := inv_reachable n p hre
  exact ⟨fun _ hstep hlt => step_terminated_increase hstep hlt,
    fun hne hall => hdrain ⟨hne, hall⟩⟩

/-- Witness for C4 on the concrete run `drainDemo`: at full termination its
pre-stop task 0 is among the executed tasks. -/
theorem shutdown_drains_pending_witness : (0 : Nat) ∈ drainDemo.executed :=
  (shutdown_drains_pending 1 drainDemo drainDemo_reachable).2 (by decide)
    (fun w hw => List.mem_singleton.mp hw) 0 (by decide)

/-- C5 counterexample: in the reachable stopped pool `stoppedDemo` the stop
flag is true, yet `submit` still accepts a new task — the submit step exists
and appends the task to the queue — because `submit` never checks `stop_`.
This refutes the clause that once the flag is true no new tasks are
accepted. -/
theorem stop_accepts_submissions_cex :
    Reachable 1 stoppedDemo ∧ stoppedDemo.stop = true ∧
    Step stoppedDemo (enqueueTask stoppedDemo) ∧
    (enqueueTask stoppedDemo).queue = [0] := by
  refine ⟨stoppedDemo_reachable, rfl, ?_, rfl⟩
  apply Step.submitNoWaiter
  intro w hw
  have := List.mem_singleton.mp hw
  subst this
  exact fun hc => WStatus.noConfusion hc

/-- C5 (amended): the stop flag starts false, is never reset by any step,
and the only step that flips it from false to true is the shutdown step,
which touches nothing but the flag and wakes all blocked workers; once the
flag is set, workers terminate only after the queue has drained; however,
`submit` does not consult the flag, so a submission after stop is still
appended to the queue (merely no longer counted as a pre-stop task). -/
theorem stop_flag_one_way (n : Nat) (p q : Pool) (hstep : Step p q) :
    (Pool.start n).stop = false ∧
    (p.stop = true → q.stop = true) ∧
    (p.stop = false → q.stop = true →
        q.queue = p.queue ∧ q.nextId = p.nextId ∧
        q.executed = p.executed ∧ q.workers = wakeAll p.workers) ∧
    (terminatedCount p.workers < terminatedCount q.workers →
        p.stop = true ∧ p.queue = []) ∧
    (p.stop = true → (enqueueTask p).queue = p.queue ++ [p.nextId] ∧
        (enqueueTask p).preStop = p.preStop) :=
  ⟨rfl,
   fun h => step_stop_mono hstep h,
   fun h0 h1 => step_stop_flip hstep h0 h1,
   fun hlt => step_terminated_increase hstep hlt,
   fun h => ⟨rfl, by simp [enqueueTask, h]⟩⟩

/-- Witness for C5 (amended) at the concrete shutdown step of a one-worker
pool: the flag starts false and is true afterwards, and the step changed
nothing but the flag and the wake-up of the workers. -/
theorem stop_flag_one_way_witness :
    (Pool.start 1).stop = false ∧
    ({ Pool.start 1 with
        stop := true,
        workers := wakeAll (Pool.start 1).workers } : Pool).queue
      = (Pool.start 1).queue := by
  have h := stop_flag_one_way 1 (Pool.start 1) _ (Step.stopSet (Pool.start 1))
  exact ⟨h.1, (h.2.2.1 rfl rfl).1⟩

/-- C9: condition-variable discipline of the pool.  A submit step (identified
by its queue effect) wakes exactly one blocked worker, or none when no worker
is waiting; the step that sets the stop flag wakes every blocked worker;
and because every woken worker re-checks the predicate, a worker terminates
only when the stop flag is set with the queue empty, and starts running a
task only by removing the front of a non-empty queue — so spurious wake-ups
never cause an incorrect exit or dequeue. -/
theorem cv_wake_discipline (p q : Pool) (hstep : Step p q) :
    (q.queue = p.queue ++ [p.nextId] →
        (∃ l r, p.workers = l ++ WStatus.blocked :: r ∧
            q.workers = l ++ WStatus.awake :: r ∧
            blockedCount q.workers + 1 = blockedCount p.workers) ∨
        ((∀ w ∈ p.workers, w ≠ WStatus.blocked) ∧ q.workers = p.workers)) ∧
    (p.stop = false → q.stop = true →
        q.workers = wakeAll p.workers ∧ blockedCount q.workers = 0) ∧
    (terminatedCount p.workers < terminatedCount q.workers →
        p.stop = true ∧ p.queue = []) ∧
    (runningTotal p.workers < runningTotal q.workers →
        ∃ t rest, p.queue = t :: rest ∧ q.queue = rest ∧
          runningCount t q.workers = runningCount t p.workers + 1) := by
  refine ⟨fun hq => step_enqueue_wakes hstep hq, ?_,
    fun hlt => step_terminated_increase hstep hlt,
    fun hlt => step_running_increase hstep hlt⟩
  intro h0 h1
  have hflip := step_stop_flip hstep h0 h1
  exact ⟨hflip.2.2.2, by rw [hflip.2.2.2]; exact blockedCount_wakeAll _⟩

/-- Witness for C9 at a concrete submit step on a pool with one blocked
worker: notify_one wakes exactly that worker. -/
theorem cv_wake_discipline_witness :
    (∃ l r,
        ({ queue := [], stop := false, nextId := 0,
           workers := [WStatus.blocked], preStop := [],
           executed := [] } : Pool).workers = l ++ WStatus.blocked :: r ∧
        ([WStatus.awake] : List WStatus) = l ++ WStatus.awake :: r ∧
        blockedCount [WStatus.awake] + 1 = blockedCount [WStatus.blocked]) ∨
    ((∀ w ∈ ({ queue := [], stop := false, nextId := 0,
                workers := [WStatus.blocked], preStop := [],
                executed := [] } : Pool).workers, w ≠ WStatus.blocked) ∧
        ([WStatus.awake] : List WStatus) = [WStatus.blocked]) := by
  have h := cv_wake_discipline
    { queue := [], stop := false, nextId := 0,
      workers := [WStatus.blocked], preStop := [], executed := [] } _
    (Step.submitWake _ [] [] rfl)
  exact h.1 rfl
